import Mathlib

/-!
Shallow embedding of the field library in `src/Mersenne31/Mersenne31.ipynb`.

Python integers are modelled as `Int`; Python's `%` on a positive modulus
agrees with `Int.emod` (both return a representative in `[0, modulus)`).
A `FieldElement` stores `value % modulus`, so an element is modelled by its
stored `Int`; the modulus is an explicit `Nat` parameter `p` (the notebook
instantiates `BabyMersenneElement` with `modulus = 2 ^ 3 - 1 = 7`).
Operations that can raise a Python exception return `Option`.

The file has two layers: first the embedded definitions, translated from
the notebook source, then an analysis layer (`VT`, `mulV`, `phi`) used to
prove the group-order property of the extension multiplication, and
finally the theorems.
-/

namespace FieldElement

/-- Models `FieldElement.__init__`: the stored value is `value % self.modulus`. -/
def init (p : Nat) (v : Int) : Int := v % (p : Int)

/-- Models `FieldElement.__add__`: `self.__class__((self.value + othervalue) % self.modulus)`.
The operand `b` is the raw integer (for an `int` operand) or the stored value
(for a field-element operand). -/
def add (p : Nat) (a b : Int) : Int := init p ((a + b) % (p : Int))

/-- Models `FieldElement.__sub__`: `self.__class__((self.value - othervalue) % self.modulus)`. -/
def sub (p : Nat) (a b : Int) : Int := init p ((a - b) % (p : Int))

/-- Models `FieldElement.__neg__`:
`self.__class__(self.modulus - (self.value or self.modulus))`; the Python
`or` yields `self.modulus` exactly when the stored value is `0`. -/
def neg (p : Nat) (a : Int) : Int := init p ((p : Int) - (if a = 0 then (p : Int) else a))

/-- Models `FieldElement.__mul__`: `self.__class__((self.value * othervalue) % self.modulus)`. -/
def mul (p : Nat) (a b : Int) : Int := init p ((a * b) % (p : Int))

/-- Models `FieldElement.__pow__` for a non-negative exponent:
`self.__class__(pow(self.value, other, self.modulus))`. -/
def pow (p : Nat) (a : Int) (e : Nat) : Int := init p ((a ^ e) % (p : Int))

/-- Models `FieldElement.inv`:
`self.__class__(pow(self.value, -1, self.modulus) if self.value else 0)`.
Python's `pow(v, -1, m)` returns the unique inverse of `v` in `[0, m)` and
raises `ValueError` when no inverse exists; it is modelled here by searching
`[0, p)` for the (unique, when `p` is prime) residue `b` with
`v * b ≡ 1 (mod p)`, returning `none` in the no-inverse (raising) case. -/
def inv (p : Nat) (a : Int) : Option Int :=
  if a = 0 then some 0
  else
    match (List.range p).find? (fun b => (a * ((b : Nat) : Int)) % (p : Int) == 1) with
    | some b => some ((b : Nat) : Int)
    | none => none

/-- Models `FieldElement.__truediv__`: `self * other.inv()` (an `int` operand
is first coerced through `__init__`, which does not change a stored value in
range; `b` here is the stored value of the coerced divisor). -/
def div (p : Nat) (a b : Int) : Option Int := (inv p b).map (fun i => mul p a i)

/-- Models `FieldElement.sqrt`: `assert self.modulus % 4 == 3` followed by
`self ** ((self.modulus + 1) // 4)`; the failed assertion is `none`. -/
def sqrt (p : Nat) (a : Int) : Option Int :=
  if p % 4 = 3 then some (pow p a ((p + 1) / 4)) else none

/-- Models `FieldElement.__eq__` against a plain integer operand:
`self.value == othervalue` with `othervalue = other` taken verbatim
(no reduction of the integer operand). -/
def beqInt (a n : Int) : Bool := a == n

/-- Models `FieldElement.to_bytes`: `self.value.to_bytes(4, 'little')`.
A byte list is modelled as a list of `Int` values in `[0, 256)`; Python
raises `OverflowError` when the value does not fit four bytes. -/
def toBytes (a : Int) : Option (List Int) :=
  if 0 ≤ a ∧ a < 4294967296 then
    some [a % 256, a / 256 % 256, a / 65536 % 256, a / 16777216 % 256]
  else none

/-- Little-endian value of a byte list: models `int.from_bytes(bytez, 'little')`. -/
def leVal : List Int → Int
  | [] => 0
  | b :: rest => b + 256 * leVal rest

/-- Models `FieldElement.from_bytes`: `cls(int.from_bytes(bytez, 'little'))`. -/
def fromBytes (p : Nat) (bs : List Int) : Int := init p (leVal bs)

end FieldElement

/-- The notebook's only instantiation: `BabyMersenneElement.modulus = 2 ** 3 - 1`. -/
def BabyMersenneElement.modulus : Nat := 2 ^ 3 - 1

/-- A `BabyMersenneElement` addition, specialised to the notebook's modulus. -/
def bbAdd (a b : Int) : Int := FieldElement.add BabyMersenneElement.modulus a b

/-- `BabyMersenneElement` subtraction. -/
def bbSub (a b : Int) : Int := FieldElement.sub BabyMersenneElement.modulus a b

/-- `BabyMersenneElement` negation. -/
def bbNeg (a : Int) : Int := FieldElement.neg BabyMersenneElement.modulus a

/-- `BabyMersenneElement` multiplication. -/
def bbMul (a b : Int) : Int := FieldElement.mul BabyMersenneElement.modulus a b

/-- `BabyMersenneElement` exponentiation. -/
def bbPow (a : Int) (e : Nat) : Int := FieldElement.pow BabyMersenneElement.modulus a e

/-- `BabyMersenneElement` construction. -/
def bbInit (v : Int) : Int := FieldElement.init BabyMersenneElement.modulus v

/-- Total form of `BabyMersenneElement.inv` used inside the extension-field
code path: for every stored (reduced) value the raising branch of
`FieldElement.inv` is unreachable when the modulus is the prime `7`, as the
lemma `bbInvT_agrees` below records, so the `Option` is discharged with an
arbitrary default. -/
def bbInvT (a : Int) : Int := (FieldElement.inv BabyMersenneElement.modulus a).getD 0

/-- Elements of the quartic extension: the stored list
`[c0, c1, c2, c3]` of `ExtendedFieldElement.value`, one `Int` per
base-field coefficient. -/
structure ExtElem where
  c0 : Int
  c1 : Int
  c2 : Int
  c3 : Int
deriving DecidableEq

namespace ExtendedFieldElement

/-- Models `EBB([a, b, c, d])`: the `list` branch of
`ExtendedFieldElement._to_list` coerces each entry through
`BabyMersenneElement.__init__`. -/
def ofList4 (a b c d : Int) : ExtElem :=
  ⟨bbInit a, bbInit b, bbInit c, bbInit d⟩

/-- The general (4-tuple) path of `ExtendedFieldElement.__mul__`: the four
Gaussian partial products `LL, LR, RL, RR` folded through
`extension_i = 4`, with every base-field operation reducing mod `7`; the
final `self.__class__(o)` re-coerces the four coefficients. -/
def mul (x y : ExtElem) : ExtElem :=
  let oLL0 := bbSub (bbMul x.c0 y.c0) (bbMul x.c1 y.c1)
  let oLL1 := bbAdd (bbMul x.c0 y.c1) (bbMul x.c1 y.c0)
  let oLR0 := bbSub (bbMul x.c0 y.c2) (bbMul x.c1 y.c3)
  let oLR1 := bbAdd (bbMul x.c0 y.c3) (bbMul x.c1 y.c2)
  let oRL0 := bbSub (bbMul x.c2 y.c0) (bbMul x.c3 y.c1)
  let oRL1 := bbAdd (bbMul x.c2 y.c1) (bbMul x.c3 y.c0)
  let oRR0 := bbSub (bbMul x.c2 y.c2) (bbMul x.c3 y.c3)
  let oRR1 := bbAdd (bbMul x.c2 y.c3) (bbMul x.c3 y.c2)
  ofList4
    (bbSub oLL0 (bbSub oRR0 (bbMul oRR1 4)))
    (bbSub oLL1 (bbAdd oRR1 (bbMul oRR0 4)))
    (bbAdd oLR0 oRL0)
    (bbAdd oLR1 oRL1)

/-- The scalar fast path of `ExtendedFieldElement.__mul__`
(`isinstance(other, (int, self.subclass))`): each coefficient is multiplied
by the raw operand value, then re-coerced by the class constructor. -/
def smul (x : ExtElem) (n : Int) : ExtElem :=
  ofList4 (bbMul x.c0 n) (bbMul x.c1 n) (bbMul x.c2 n) (bbMul x.c3 n)

/-- Fuel-indexed form of `ExtendedFieldElement.__pow__`; the fuel only makes
the recursion structural.  `pow_rec_step` below shows the notebook's
recursion equation holds of `pow := fun x e => powF (e + 1) x e`, and the
base cases hold definitionally. -/
def powF : Nat → ExtElem → Nat → ExtElem
  | 0, _, _ => ofList4 1 0 0 0
  | _ + 1, _, 0 => ofList4 1 0 0 0
  | _ + 1, x, 1 => x
  | _ + 1, x, 2 => mul x x
  | f + 1, x, (e + 3) => mul (powF f x ((e + 3) % 2)) (powF f (powF f x ((e + 3) / 2)) 2)

/-- Models `ExtendedFieldElement.__pow__` for a non-negative exponent. -/
def pow (x : ExtElem) (e : Nat) : ExtElem := powF (e + 1) x e

/-- Models `ExtendedFieldElement.inv`: the norm-based formula, with the
doubling literals `r21 * 2` and `r20 * 2` exactly as in the source. -/
def inv (x : ExtElem) : ExtElem :=
  let r20 := bbSub (bbMul x.c2 x.c2) (bbMul x.c3 x.c3)
  let r21 := bbMul (bbMul x.c2 2) x.c3
  let denom0 := bbSub (bbAdd (bbSub (bbPow x.c0 2) (bbPow x.c1 2)) r20) (bbMul r21 2)
  let denom1 := bbAdd (bbAdd (bbMul (bbMul x.c0 2) x.c1) r21) (bbMul r20 2)
  let invDenomNorm := bbInvT (bbAdd (bbPow denom0 2) (bbPow denom1 2))
  let invDenom0 := bbMul denom0 invDenomNorm
  let invDenom1 := bbMul (bbNeg denom1) invDenomNorm
  ofList4
    (bbSub (bbMul x.c0 invDenom0) (bbMul x.c1 invDenom1))
    (bbAdd (bbMul x.c0 invDenom1) (bbMul x.c1 invDenom0))
    (bbAdd (bbMul (bbNeg x.c2) invDenom0) (bbMul x.c3 invDenom1))
    (bbSub (bbMul (bbNeg x.c2) invDenom1) (bbMul x.c3 invDenom0))

/-- Models `ExtendedFieldElement.to_bytes`: the concatenation of the four
coefficient encodings, in order. -/
def toBytes (x : ExtElem) : Option (List Int) := do
  let b0 ← FieldElement.toBytes x.c0
  let b1 ← FieldElement.toBytes x.c1
  let b2 ← FieldElement.toBytes x.c2
  let b3 ← FieldElement.toBytes x.c3
  pure (b0 ++ b1 ++ b2 ++ b3)

/-- Models `ExtendedFieldElement.from_bytes`: the four little-endian 4-byte
chunks at offsets `0, 4, 8, 12`, each coerced through the subclass
constructor by the `list` branch of `_to_list`. -/
def fromBytes (bs : List Int) : ExtElem :=
  ofList4
    (FieldElement.leVal ((bs.drop 0).take 4))
    (FieldElement.leVal ((bs.drop 4).take 4))
    (FieldElement.leVal ((bs.drop 8).take 4))
    (FieldElement.leVal ((bs.drop 12).take 4))

end ExtendedFieldElement

/-- The possible Python arguments to the `ExtendedFieldElement` constructor:
an extension element (its stored coefficient list), a `BabyMersenneElement`
(its stored value), a list of coercible values, a plain integer, or any
other object. -/
inductive PyValue where
  | ext (value : List Int)
  | base (b : Int)
  | list (l : List Int)
  | int (n : Int)
  | other
deriving DecidableEq

namespace ExtendedFieldElement

/-- Models `ExtendedFieldElement._to_list`; the `raise Exception(...)`
branch is `none`. -/
def toListArg : PyValue → Option (List Int)
  | .ext value => some value
  | .base b => some ([b] ++ [0, 0, 0])
  | .list l => some (l.map (fun v => bbInit v))
  | .int n => some ([bbInit n] ++ [0, 0, 0])
  | .other => none

/-- Models `ExtendedFieldElement.__init__`: stores `_to_list(value)`, then
reads `self.value[0].modulus`, which raises `IndexError` on an empty list. -/
def init (v : PyValue) : Option (List Int) :=
  match toListArg v with
  | none => none
  | some l => if l.isEmpty then none else some l

end ExtendedFieldElement

/-! Analysis layer for the quartic extension over `ZMod 7`. -/

/-- A quadruple over `ZMod 7`: the image of a stored coefficient list under
reduction; used to analyse the extension multiplication abstractly. -/
structure VT where
  a0 : ZMod 7
  a1 : ZMod 7
  a2 : ZMod 7
  a3 : ZMod 7
deriving DecidableEq

/-- Zero quadruple. -/
def vzero : VT := ⟨0, 0, 0, 0⟩

/-- Identity quadruple. -/
def vone : VT := ⟨1, 0, 0, 0⟩

/-- The tower multiplication of `ExtendedFieldElement.__mul__` read over
`ZMod 7` (same Gaussian products and `extension_i = 4` fold, no explicit
reductions needed). -/
def mulV (x y : VT) : VT :=
  ⟨x.a0 * y.a0 - x.a1 * y.a1 - (x.a2 * y.a2 - x.a3 * y.a3 - (x.a2 * y.a3 + x.a3 * y.a2) * 4),
   x.a0 * y.a1 + x.a1 * y.a0 - (x.a2 * y.a3 + x.a3 * y.a2 + (x.a2 * y.a2 - x.a3 * y.a3) * 4),
   x.a0 * y.a2 - x.a1 * y.a3 + (x.a2 * y.a0 - x.a3 * y.a1),
   x.a0 * y.a3 + x.a1 * y.a2 + (x.a2 * y.a1 + x.a3 * y.a0)⟩

/-- The mathematically consistent tower inverse (`extension_i`-consistent
denominator fold), used only to show every nonzero quadruple is a unit of
`mulV`. -/
def invV (x : VT) : VT :=
  let r20 := x.a2 * x.a2 - x.a3 * x.a3
  let r21 := x.a2 * x.a3 + x.a2 * x.a3
  let d0 := x.a0 * x.a0 - x.a1 * x.a1 + (r20 - r21 * 4)
  let d1 := x.a0 * x.a1 + x.a0 * x.a1 + (r21 + r20 * 4)
  let n2 := d0 * d0 + d1 * d1
  let w := n2 * n2 * n2 * n2 * n2
  let i0 := d0 * w
  let i1 := -d1 * w
  ⟨x.a0 * i0 - x.a1 * i1, x.a0 * i1 + x.a1 * i0, -(x.a2 * i0) + x.a3 * i1, -(x.a2 * i1) - x.a3 * i0⟩

/-- `VT` is just a labelled quadruple. -/
def vtEquiv : VT ≃ (ZMod 7 × ZMod 7 × ZMod 7 × ZMod 7) where
  toFun x := (x.a0, x.a1, x.a2, x.a3)
  invFun x := ⟨x.1, x.2.1, x.2.2.1, x.2.2.2⟩
  left_inv := fun _ => rfl
  right_inv := fun _ => rfl

instance : Fintype VT := Fintype.ofEquiv _ vtEquiv.symm

instance : CommMonoid VT where
  mul := mulV
  one := vone
  mul_assoc a b c := by
    show mulV (mulV a b) c = mulV a (mulV b c)
    cases a; cases b; cases c
    simp only [mulV, VT.mk.injEq]
    refine ⟨by ring, by ring, by ring, by ring⟩
  mul_comm a b := by
    show mulV a b = mulV b a
    cases a; cases b
    simp only [mulV, VT.mk.injEq]
    refine ⟨by ring, by ring, by ring, by ring⟩
  one_mul a := by
    show mulV vone a = a
    cases a
    simp only [mulV, vone, VT.mk.injEq]
    refine ⟨by ring, by ring, by ring, by ring⟩
  mul_one a := by
    show mulV a vone = a
    cases a
    simp only [mulV, vone, VT.mk.injEq]
    refine ⟨by ring, by ring, by ring, by ring⟩

/-- The image of a stored coefficient quadruple in `ZMod 7`. -/
def phi (x : ExtElem) : VT :=
  ⟨(x.c0 : ZMod 7), (x.c1 : ZMod 7), (x.c2 : ZMod 7), (x.c3 : ZMod 7)⟩

/-- A stored coefficient list whose four entries are reduced into `[0, 7)`. -/
def EReduced (x : ExtElem) : Prop :=
  (0 ≤ x.c0 ∧ x.c0 < 7) ∧ (0 ≤ x.c1 ∧ x.c1 < 7) ∧ (0 ≤ x.c2 ∧ x.c2 < 7) ∧ (0 ≤ x.c3 ∧ x.c3 < 7)

/-! Shared lemmas. -/

/-- `BabyMersenneElement.modulus` evaluates to `7`. -/
theorem BabyMersenneElement.modulus_eq : BabyMersenneElement.modulus = 7 := rfl

theorem mulV_comm (a b : VT) : mulV a b = mulV b a := by
  cases a; cases b
  simp only [mulV, VT.mk.injEq]
  refine ⟨by ring, by ring, by ring, by ring⟩

theorem mulV_eq_mul (a b : VT) : mulV a b = a * b := rfl

theorem vzero_mulV (a : VT) : mulV vzero a = vzero := by
  cases a
  simp only [mulV, vzero, VT.mk.injEq]
  refine ⟨by ring, by ring, by ring, by ring⟩

set_option maxRecDepth 100000 in
set_option maxHeartbeats 4000000 in
theorem invV_works : ∀ a b c d : ZMod 7,
    VT.mk a b c d ≠ vzero → mulV ⟨a, b, c, d⟩ (invV ⟨a, b, c, d⟩) = vone := by
  decide

theorem invV_works' (x : VT) (hx : x ≠ vzero) : x * invV x = 1 := by
  cases x
  exact invV_works _ _ _ _ hx

theorem invV_works_left (x : VT) (hx : x ≠ vzero) : invV x * x = 1 := by
  rw [← mulV_eq_mul, mulV_comm, mulV_eq_mul]
  exact invV_works' x hx

theorem unit_val_ne_vzero (u : VTˣ) : (u : VT) ≠ vzero := by
  intro h
  have h1 : (u : VT) * (u⁻¹ : VTˣ) = 1 := u.mul_inv
  rw [h, ← mulV_eq_mul, vzero_mulV] at h1
  exact absurd h1.symm (by decide)

theorem card_VT : Fintype.card VT = 2401 := by
  rw [Fintype.card_congr vtEquiv]
  simp only [Fintype.card_prod, ZMod.card]

theorem card_units_VT : Fintype.card VTˣ = 2400 := by
  have e : VTˣ ≃ {y : VT // ¬y = vzero} :=
    { toFun := fun u => ⟨u, unit_val_ne_vzero u⟩
      invFun := fun s => ⟨s.val, invV s.val, invV_works' s.val s.prop, invV_works_left s.val s.prop⟩
      left_inv := fun _ => Units.ext rfl
      right_inv := fun _ => rfl }
  rw [Fintype.card_congr e, Fintype.card_subtype_compl, card_VT, Fintype.card_subtype_eq]

theorem vt_pow_card (x : VT) (hx : x ≠ vzero) : x ^ 2400 = 1 := by
  have h := pow_card_eq_one (G := VTˣ)
    (x := ⟨x, invV x, invV_works' x hx, invV_works_left x hx⟩)
  rw [card_units_VT] at h
  have h2 := congrArg Units.val h
  rw [Units.val_pow_eq_pow_val] at h2
  exact h2

theorem intCast_emod_seven (a : Int) : ((a % (7 : Int) : Int) : ZMod 7) = (a : ZMod 7) := by
  have h7 : (7 : ZMod 7) = 0 := by decide
  rw [Int.emod_def]
  push_cast
  rw [h7]
  ring

theorem phi_mul (x y : ExtElem) :
    phi (ExtendedFieldElement.mul x y) = mulV (phi x) (phi y) := by
  cases x; cases y
  simp only [ExtendedFieldElement.mul, ExtendedFieldElement.ofList4, bbAdd, bbSub, bbMul, bbInit,
    FieldElement.add, FieldElement.sub, FieldElement.mul, FieldElement.init,
    BabyMersenneElement.modulus_eq, phi, mulV, VT.mk.injEq]
  refine ⟨?_, ?_, ?_, ?_⟩ <;>
    simp only [intCast_emod_seven, Int.cast_add, Int.cast_sub, Int.cast_mul, Int.cast_ofNat,
      Int.cast_one, Int.cast_zero, Nat.cast_ofNat]

theorem phi_one : phi (ExtendedFieldElement.ofList4 1 0 0 0) = 1 := by decide

theorem powF_fuel : ∀ (e f g : Nat) (x : ExtElem), e < f → e < g →
    ExtendedFieldElement.powF f x e = ExtendedFieldElement.powF g x e := by
  intro e
  induction e using Nat.strong_induction_on with
  | _ e ih =>
    intro f g x hf hg
    obtain ⟨f, rfl⟩ : ∃ j, f = j + 1 := ⟨f - 1, by omega⟩
    obtain ⟨g, rfl⟩ : ∃ j, g = j + 1 := ⟨g - 1, by omega⟩
    rcases e with _ | _ | _ | e
    · rfl
    · rfl
    · rfl
    · simp only [ExtendedFieldElement.powF]
      rw [ih ((e + 3) % 2) (by omega) f g x (by omega) (by omega)]
      rw [ih ((e + 3) / 2) (by omega) f g x (by omega) (by omega)]
      rw [ih 2 (by omega) f g (ExtendedFieldElement.powF g x ((e + 3) / 2)) (by omega) (by omega)]

/-- The notebook's recursion equation for `__pow__` on exponents `>= 3`. -/
theorem pow_rec_step (x : ExtElem) (e : Nat) (he : 3 ≤ e) :
    ExtendedFieldElement.pow x e =
      ExtendedFieldElement.mul (ExtendedFieldElement.pow x (e % 2))
        (ExtendedFieldElement.pow (ExtendedFieldElement.pow x (e / 2)) 2) := by
  obtain ⟨k, rfl⟩ : ∃ k, e = k + 3 := ⟨e - 3, by omega⟩
  show ExtendedFieldElement.powF ((k + 3) + 1) x (k + 3) =
    ExtendedFieldElement.mul (ExtendedFieldElement.powF ((k + 3) % 2 + 1) x ((k + 3) % 2))
      (ExtendedFieldElement.powF (2 + 1)
        (ExtendedFieldElement.powF ((k + 3) / 2 + 1) x ((k + 3) / 2)) 2)
  simp only [ExtendedFieldElement.powF]
  rw [powF_fuel ((k + 3) % 2) (k + 3) ((k + 3) % 2 + 1) x (by omega) (by omega)]
  rw [powF_fuel ((k + 3) / 2) (k + 3) ((k + 3) / 2 + 1) x (by omega) (by omega)]

theorem phi_pow : ∀ (e : Nat) (x : ExtElem),
    phi (ExtendedFieldElement.pow x e) = (phi x) ^ e := by
  intro e
  induction e using Nat.strong_induction_on with
  | _ e ih =>
    intro x
    rcases e with _ | _ | _ | e
    · rw [show ExtendedFieldElement.pow x 0 = ExtendedFieldElement.ofList4 1 0 0 0 from rfl,
        phi_one, pow_zero]
    · rw [show ExtendedFieldElement.pow x 1 = x from rfl, pow_one]
    · rw [show ExtendedFieldElement.pow x 2 = ExtendedFieldElement.mul x x from rfl, phi_mul,
        mulV_eq_mul, sq]
    · rw [pow_rec_step x (e + 3) (by omega), phi_mul, mulV_eq_mul,
        ih ((e + 3) % 2) (by omega), ih 2 (by omega), ih ((e + 3) / 2) (by omega),
        ← pow_mul, ← pow_add]
      congr 1
      omega

theorem ofList4_reduced (a b c d : Int) : EReduced (ExtendedFieldElement.ofList4 a b c d) := by
  refine ⟨⟨?_, ?_⟩, ⟨?_, ?_⟩, ⟨?_, ?_⟩, ⟨?_, ?_⟩⟩ <;>
    simp only [ExtendedFieldElement.ofList4, bbInit, FieldElement.init,
      BabyMersenneElement.modulus_eq] <;>
    omega

theorem mul_reduced (x y : ExtElem) : EReduced (ExtendedFieldElement.mul x y) :=
  ofList4_reduced _ _ _ _

theorem powF_reduced (f e : Nat) (x : ExtElem) (hx : EReduced x) :
    EReduced (ExtendedFieldElement.powF f x e) := by
  match f, e with
  | 0, e => exact ofList4_reduced 1 0 0 0
  | f + 1, 0 => exact ofList4_reduced 1 0 0 0
  | f + 1, 1 => exact hx
  | f + 1, 2 => exact mul_reduced x x
  | f + 1, (e + 3) => exact mul_reduced _ _

theorem pow_reduced (x : ExtElem) (e : Nat) (hx : EReduced x) :
    EReduced (ExtendedFieldElement.pow x e) :=
  powF_reduced (e + 1) e x hx

theorem phi_inj (x y : ExtElem) (hx : EReduced x) (hy : EReduced y) (h : phi x = phi y) :
    x = y := by
  cases x; cases y
  simp only [phi, VT.mk.injEq] at h
  simp only [EReduced] at hx hy
  obtain ⟨h0, h1, h2, h3⟩ := h
  obtain ⟨hx0, hx1, hx2, hx3⟩ := hx
  obtain ⟨hy0, hy1, hy2, hy3⟩ := hy
  have e0 := (ZMod.intCast_eq_intCast_iff' _ _ _).mp h0
  have e1 := (ZMod.intCast_eq_intCast_iff' _ _ _).mp h1
  have e2 := (ZMod.intCast_eq_intCast_iff' _ _ _).mp h2
  have e3 := (ZMod.intCast_eq_intCast_iff' _ _ _).mp h3
  simp only [Nat.cast_ofNat] at e0 e1 e2 e3
  simp only [ExtElem.mk.injEq]
  refine ⟨?_, ?_, ?_, ?_⟩ <;> omega

theorem init_bounds (p : Nat) (hp : 0 < p) (v : Int) :
    0 ≤ FieldElement.init p v ∧ FieldElement.init p v < p := by
  unfold FieldElement.init
  constructor
  · exact Int.emod_nonneg v (by omega)
  · exact Int.emod_lt_of_pos v (by omega)

theorem smul_reduced (x : ExtElem) (n : Int) : EReduced (ExtendedFieldElement.smul x n) :=
  ofList4_reduced _ _ _ _

theorem smul_eq_mul_embed (x : ExtElem) (n m : Int) (hm : (m : ZMod 7) = (n : ZMod 7)) :
    ExtendedFieldElement.smul x n = ExtendedFieldElement.mul x ⟨m, 0, 0, 0⟩ := by
  apply phi_inj _ _ (smul_reduced x n) (mul_reduced _ _)
  rw [phi_mul]
  cases x
  simp only [ExtendedFieldElement.smul, ExtendedFieldElement.ofList4, bbMul, bbInit,
    FieldElement.mul, FieldElement.init, BabyMersenneElement.modulus_eq, phi, mulV,
    VT.mk.injEq, Int.cast_zero]
  rw [hm]
  refine ⟨?_, ?_, ?_, ?_⟩ <;>
    simp only [intCast_emod_seven, Int.cast_add, Int.cast_sub, Int.cast_mul, Int.cast_ofNat,
      Int.cast_one, Int.cast_zero, Nat.cast_ofNat] <;>
    ring

set_option maxRecDepth 100000 in
theorem bbInvT_agrees :
    ∀ a : Fin 7, FieldElement.inv BabyMersenneElement.modulus ((a.val : Int)) =
      some (bbInvT ((a.val : Int))) := by
  decide

/-! Claim theorems. -/

set_option maxRecDepth 100000 in
/-- Claim C1: the spec asserts `mul(x, inv(x)) == (1,0,0,0)` for every nonzero
extension element.  The code violates this: at `x = EBB([0,0,1,0])` the
notebook's `inv` (whose denominator fold doubles with the literal `2` instead
of `extension_i = 4`, inconsistently with `__mul__`) yields
`mul(x, inv(x)) = (6,6,0,0)`, not the identity.  This theorem evaluates the
embedded code at that failing input. -/
theorem ExtendedFieldElement.mul_inv_at_j :
    ExtendedFieldElement.mul (ExtendedFieldElement.ofList4 0 0 1 0)
        (ExtendedFieldElement.inv (ExtendedFieldElement.ofList4 0 0 1 0)) =
      ExtendedFieldElement.ofList4 6 6 0 0 ∧
    ExtendedFieldElement.ofList4 6 6 0 0 ≠ ExtendedFieldElement.ofList4 1 0 0 0 :=
  ⟨by decide, by decide⟩

set_option maxRecDepth 100000 in
/-- Claim C2: extension-field Fermat property.  Every nonzero quartic
extension element `x` over `p = 7`, `extension_i = 4` satisfies
`x ** (p^4 - 1) == (1,0,0,0)` under the notebook's recursive binary
exponentiation; concretely `EBB([1,2,3,4]) ** (7**4 - 1) == EBB([1,0,0,0])`. -/
theorem ExtendedFieldElement.pow_fermat :
    (∀ a b c d : Fin 7, ¬(a.val = 0 ∧ b.val = 0 ∧ c.val = 0 ∧ d.val = 0) →
      ExtendedFieldElement.pow ⟨(a.val : Int), (b.val : Int), (c.val : Int), (d.val : Int)⟩
          (7 ^ 4 - 1) =
        ExtendedFieldElement.ofList4 1 0 0 0) ∧
    ExtendedFieldElement.pow (ExtendedFieldElement.ofList4 1 2 3 4) (7 ^ 4 - 1) =
      ExtendedFieldElement.ofList4 1 0 0 0 := by
  constructor
  · intro a b c d hne
    have ha := a.isLt
    have hb := b.isLt
    have hc := c.isLt
    have hd := d.isLt
    have hxr : EReduced ⟨(a.val : Int), (b.val : Int), (c.val : Int), (d.val : Int)⟩ := by
      refine ⟨⟨?_, ?_⟩, ⟨?_, ?_⟩, ⟨?_, ?_⟩, ⟨?_, ?_⟩⟩ <;> dsimp only <;> omega
    have hphix : phi ⟨(a.val : Int), (b.val : Int), (c.val : Int), (d.val : Int)⟩ ≠ vzero := by
      intro h
      simp only [phi, vzero, VT.mk.injEq, Int.cast_natCast] at h
      obtain ⟨h0, h1, h2, h3⟩ := h
      refine hne ⟨?_, ?_, ?_, ?_⟩
      · have := (ZMod.natCast_zmod_eq_zero_iff_dvd a.val 7).mp h0
        omega
      · have := (ZMod.natCast_zmod_eq_zero_iff_dvd b.val 7).mp h1
        omega
      · have := (ZMod.natCast_zmod_eq_zero_iff_dvd c.val 7).mp h2
        omega
      · have := (ZMod.natCast_zmod_eq_zero_iff_dvd d.val 7).mp h3
        omega
    have h1 : phi (ExtendedFieldElement.pow
        ⟨(a.val : Int), (b.val : Int), (c.val : Int), (d.val : Int)⟩ (7 ^ 4 - 1)) = 1 := by
      rw [phi_pow]
      rw [show (7 : Nat) ^ 4 - 1 = 2400 from by norm_num]
      exact vt_pow_card _ hphix
    exact phi_inj _ _ (pow_reduced _ _ hxr) (ofList4_reduced 1 0 0 0) (h1.trans phi_one.symm)
  · decide

/-- Claim C2 witness: the universal part applied at the concrete nonzero
element `(1, 2, 3, 4)`. -/
theorem ExtendedFieldElement.pow_fermat_witness :
    ¬((1 : Fin 7).val = 0 ∧ (2 : Fin 7).val = 0 ∧ (3 : Fin 7).val = 0 ∧ (4 : Fin 7).val = 0) ∧
    ExtendedFieldElement.pow ⟨((1 : Fin 7).val : Int), ((2 : Fin 7).val : Int),
        ((3 : Fin 7).val : Int), ((4 : Fin 7).val : Int)⟩ (7 ^ 4 - 1) =
      ExtendedFieldElement.ofList4 1 0 0 0 :=
  ⟨by decide, ExtendedFieldElement.pow_fermat.1 1 2 3 4 (by decide)⟩

set_option maxRecDepth 100000 in
/-- Claim C3: extension multiplication literal.  With `p = 7` and
`extension_i = 4`, the general tower multiplication gives
`EBB([1,2,3,4]) * EBB([5,6,7,8]) == EBB([2,1,3,4])`. -/
theorem ExtendedFieldElement.mul_literal :
    ExtendedFieldElement.mul (ExtendedFieldElement.ofList4 1 2 3 4)
      (ExtendedFieldElement.ofList4 5 6 7 8) = ExtendedFieldElement.ofList4 2 1 3 4 := by
  decide

/-- Claim C4 counterexample: the claim "for every list input whose length is
not 4, construction must fail" is false on the code — `EBB([1, 2])`
constructs successfully (no length check exists in `_to_list`). -/
theorem ExtendedFieldElement.init_length_unchecked :
    ¬ (∀ l : List Int, l.length ≠ 4 → ExtendedFieldElement.init (PyValue.list l) = none) := by
  intro h
  exact absurd (h [1, 2] (by decide)) (by decide)

/-- Claim C4 (amended): the `ExtendedFieldElement` constructor fails exactly
on an argument of incompatible type (the `raise Exception` branch) and on an
empty list (an `IndexError` when reading `self.value[0].modulus`); every
other argument is accepted — in particular a nonempty list of ANY length is
silently coerced element-wise into an element with that many coefficients,
with no length-4 check. -/
theorem ExtendedFieldElement.init_spec :
    ExtendedFieldElement.init PyValue.other = none ∧
    (∀ n : Int, ExtendedFieldElement.init (PyValue.int n) = some [bbInit n, 0, 0, 0]) ∧
    (∀ b : Int, ExtendedFieldElement.init (PyValue.base b) = some [b, 0, 0, 0]) ∧
    (∀ v : List Int, v ≠ [] → ExtendedFieldElement.init (PyValue.ext v) = some v) ∧
    ExtendedFieldElement.init (PyValue.list []) = none ∧
    (∀ l : List Int, l ≠ [] →
      ∃ r, ExtendedFieldElement.init (PyValue.list l) = some r ∧ r.length = l.length) := by
  refine ⟨rfl, fun n => rfl, fun b => rfl, ?_, rfl, ?_⟩
  · intro v hv
    simp only [ExtendedFieldElement.init, ExtendedFieldElement.toListArg]
    rw [if_neg (by simpa [List.isEmpty_iff] using hv)]
  · intro l hl
    refine ⟨l.map (fun v => bbInit v), ?_, by simp⟩
    simp only [ExtendedFieldElement.init, ExtendedFieldElement.toListArg]
    rw [if_neg (by simp [List.isEmpty_iff, hl])]

/-- Claim C4 witness: the list `[1, 2, 3]` of length 3 is accepted and
produces a 3-coefficient value. -/
theorem ExtendedFieldElement.init_spec_witness :
    ([1, 2, 3] : List Int) ≠ [] ∧
    ∃ r, ExtendedFieldElement.init (PyValue.list [1, 2, 3]) = some r ∧
      r.length = ([1, 2, 3] : List Int).length :=
  ⟨by decide, ExtendedFieldElement.init_spec.2.2.2.2.2 [1, 2, 3] (by decide)⟩

/-- Claim C5: `sqrt` returns `a ^ ((p + 1) / 4) mod p` when `p % 4 = 3`, in
which case the result squares back to `a` for every quadratic residue `a`;
when `p % 4 ≠ 3` the call fails fast (assertion failure). -/
theorem FieldElement.sqrt_spec (p : Nat) (hp : p.Prime) :
    ((p % 4 = 3 → ∀ a : Int,
        FieldElement.sqrt p a = some (FieldElement.pow p a ((p + 1) / 4))) ∧
     (p % 4 = 3 → ∀ a b : Int, FieldElement.mul p b b = a →
        ∃ c, FieldElement.sqrt p a = some c ∧ FieldElement.mul p c c = a)) ∧
    (p % 4 ≠ 3 → ∀ a : Int, FieldElement.sqrt p a = none) := by
  haveI : Fact p.Prime := ⟨hp⟩
  refine ⟨⟨fun h3 a => by rw [FieldElement.sqrt, if_pos h3], fun h3 a b hab => ?_⟩,
    fun h3 a => by rw [FieldElement.sqrt, if_neg h3]⟩
  have hp2 : 2 ≤ p := hp.two_le
  subst hab
  refine ⟨FieldElement.pow p (FieldElement.mul p b b) ((p + 1) / 4),
    by rw [FieldElement.sqrt, if_pos h3], ?_⟩
  set k := (p + 1) / 4 with hk
  have h4k : 4 * k = p + 1 := by omega
  have hkne : k ≠ 0 := by omega
  have mulc : ∀ u v : Int, FieldElement.mul p u v = (u * v) % (p : Int) := by
    intro u v
    unfold FieldElement.mul FieldElement.init
    exact Int.emod_emod_of_dvd _ dvd_rfl
  have amod : FieldElement.mul p b b = (b * b) % (p : Int) := mulc b b
  have key : ((FieldElement.pow p (FieldElement.mul p b b) k *
      FieldElement.pow p (FieldElement.mul p b b) k : Int) : ZMod p) =
      ((b * b : Int) : ZMod p) := by
    unfold FieldElement.pow FieldElement.init
    rw [amod]
    push_cast [ZMod.intCast_mod]
    set B := (b : ZMod p) with hB
    rcases eq_or_ne B 0 with hB0 | hB0
    · rw [hB0]
      simp [zero_pow hkne]
    · have hfermat : B ^ (p - 1) = 1 := ZMod.pow_card_sub_one_eq_one hB0
      calc (B * B) ^ k * (B * B) ^ k
          = B ^ (4 * k) := by
            rw [show B * B = B ^ 2 from (sq B).symm, ← pow_mul, ← pow_add]
            congr 1
            omega
        _ = B ^ (p + 1) := by rw [h4k]
        _ = B ^ (p - 1) * B ^ 2 := by rw [← pow_add]; congr 1; omega
        _ = B * B := by rw [hfermat, one_mul, sq]
  have e5 := (ZMod.intCast_eq_intCast_iff' _ _ _).mp key
  rw [mulc (FieldElement.pow p (FieldElement.mul p b b) k)
      (FieldElement.pow p (FieldElement.mul p b b) k), e5, amod]

/-- Claim C5 witness: at `p = 7` the residue `2 = 3 * 3` has
`sqrt(2) = 4` and `4 * 4 == 2`. -/
theorem FieldElement.sqrt_spec_witness :
    Nat.Prime 7 ∧ 7 % 4 = 3 ∧ FieldElement.mul 7 3 3 = 2 ∧
    ∃ c, FieldElement.sqrt 7 2 = some c ∧ FieldElement.mul 7 c c = 2 :=
  ⟨by norm_num, by norm_num, by decide,
    (FieldElement.sqrt_spec 7 (by norm_num)).1.2 (by norm_num) 2 3 (by decide)⟩

/-- Claim C6: the prime-field inverse law.  `inv(0) = 0` without raising,
and for every `a` in `[1, p)` the call `inv(a)` returns the unique `b` in
`[0, p)` with `mul(a, b) = 1`. -/
theorem FieldElement.inv_spec (p : Nat) (hp : p.Prime) :
    FieldElement.inv p 0 = some 0 ∧
    ∀ a : Int, 0 < a → a < p →
      ∃ b, FieldElement.inv p a = some b ∧ FieldElement.mul p a b = 1 ∧
        ∀ c : Int, 0 ≤ c → c < p → FieldElement.mul p a c = 1 → c = b := by
  haveI : Fact p.Prime := ⟨hp⟩
  constructor
  · simp [FieldElement.inv]
  · intro a ha0 hap
    have hp2 : 2 ≤ p := hp.two_le
    have hAne : (a : ZMod p) ≠ 0 := by
      rw [Ne, ZMod.intCast_zmod_eq_zero_iff_dvd]
      intro hdvd
      have := Int.le_of_dvd ha0 hdvd
      omega
    set b0 : Nat := ((a : ZMod p)⁻¹).val with hb0
    have hb0lt : b0 < p := ZMod.val_lt _
    have hkey : (a * ((b0 : Nat) : Int)) % (p : Int) = 1 := by
      have h1 : ((b0 : Nat) : ZMod p) = (a : ZMod p)⁻¹ := ZMod.natCast_rightInverse _
      have h2 : ((a * ((b0 : Nat) : Int) : Int) : ZMod p) = ((1 : Int) : ZMod p) := by
        push_cast
        rw [h1]
        exact mul_inv_cancel₀ hAne
      have h3 := (ZMod.intCast_eq_intCast_iff' _ _ _).mp h2
      rwa [show (1 : Int) % (p : Int) = 1 from Int.emod_eq_of_lt (by omega) (by omega)] at h3
    have hmem : b0 ∈ List.range p := List.mem_range.mpr hb0lt
    rcases hfind : (List.range p).find? (fun j => (a * ((j : Nat) : Int)) % (p : Int) == 1)
      with _ | j
    · rw [List.find?_eq_none] at hfind
      have := hfind b0 hmem
      simp only [beq_iff_eq] at this
      exact absurd hkey this
    · have hj : (a * ((j : Nat) : Int)) % (p : Int) = 1 := by
        have := List.find?_some hfind
        simpa using this
      have hjlt : j < p := List.mem_range.mp (List.mem_of_find?_eq_some hfind)
      refine ⟨((j : Nat) : Int), ?_, ?_, ?_⟩
      · unfold FieldElement.inv
        rw [if_neg (by omega), hfind]
      · unfold FieldElement.mul FieldElement.init
        rw [hj]
        exact Int.emod_eq_of_lt (by omega) (by omega)
      · intro c hc0 hcp hmulc
        have hc1 : (a * c) % (p : Int) = 1 := by
          unfold FieldElement.mul FieldElement.init at hmulc
          rwa [Int.emod_emod_of_dvd _ dvd_rfl] at hmulc
        have e1 : ((a * c : Int) : ZMod p) = ((a * ((j : Nat) : Int) : Int) : ZMod p) := by
          rw [ZMod.intCast_eq_intCast_iff', hc1, hj]
        have e2 : (a : ZMod p) * (c : ZMod p) = (a : ZMod p) * ((j : Nat) : ZMod p) := by
          push_cast at e1
          exact e1
        have e3 : (c : ZMod p) = ((j : Nat) : ZMod p) := mul_left_cancel₀ hAne e2
        have e4 : c % (p : Int) = ((j : Nat) : Int) % (p : Int) := by
          rw [← ZMod.intCast_eq_intCast_iff']
          push_cast
          exact e3
        rw [Int.emod_eq_of_lt hc0 hcp, Int.emod_eq_of_lt (by omega) (by omega)] at e4
        exact e4

/-- Claim C6 witness: at `p = 7`, `inv(3) = 5` with `3 * 5 == 1`, and the
inverse is unique in range. -/
theorem FieldElement.inv_spec_witness :
    Nat.Prime 7 ∧ (0 : Int) < 3 ∧ (3 : Int) < 7 ∧
    ∃ b, FieldElement.inv 7 3 = some b ∧ FieldElement.mul 7 3 b = 1 ∧
      ∀ c : Int, 0 ≤ c → c < 7 → FieldElement.mul 7 3 c = 1 → c = b :=
  ⟨by norm_num, by norm_num, by norm_num,
    (FieldElement.inv_spec 7 (by norm_num)).2 3 (by norm_num) (by norm_num)⟩

/-- Claim C7: byte-encoding round trip.  A prime-field element encodes to a
fixed 4-byte little-endian buffer and decodes back to itself; a quartic
extension element encodes to the 16-byte concatenation of its coefficient
encodings in order `c0, c1, c2, c3` and decodes back to itself. -/
theorem bytes_roundtrip :
    (∀ (p : Nat) (a : Int), 0 < p → 0 ≤ a → a < p → a < 4294967296 →
      ∃ bs, FieldElement.toBytes a = some bs ∧ bs.length = 4 ∧
        FieldElement.fromBytes p bs = a) ∧
    (∀ x : ExtElem, EReduced x →
      ∃ bs, ExtendedFieldElement.toBytes x = some bs ∧ bs.length = 16 ∧
        ExtendedFieldElement.fromBytes bs = x) := by
  constructor
  · intro p a hp h0 h1 h2
    refine ⟨[a % 256, a / 256 % 256, a / 65536 % 256, a / 16777216 % 256], ?_, rfl, ?_⟩
    · rw [FieldElement.toBytes, if_pos ⟨h0, h2⟩]
    · simp only [FieldElement.fromBytes, FieldElement.leVal, FieldElement.init]
      have hval : a % 256 + 256 * (a / 256 % 256 + 256 * (a / 65536 % 256 +
          256 * (a / 16777216 % 256 + 256 * 0))) = a := by omega
      rw [hval]
      exact Int.emod_eq_of_lt h0 h1
  · intro x hx
    cases x
    simp only [EReduced] at hx
    obtain ⟨⟨hx00, hx01⟩, ⟨hx10, hx11⟩, ⟨hx20, hx21⟩, ⟨hx30, hx31⟩⟩ := hx
    rename_i c0 c1 c2 c3
    have t0 : FieldElement.toBytes c0 =
        some [c0 % 256, c0 / 256 % 256, c0 / 65536 % 256, c0 / 16777216 % 256] := by
      rw [FieldElement.toBytes, if_pos ⟨hx00, by omega⟩]
    have t1 : FieldElement.toBytes c1 =
        some [c1 % 256, c1 / 256 % 256, c1 / 65536 % 256, c1 / 16777216 % 256] := by
      rw [FieldElement.toBytes, if_pos ⟨hx10, by omega⟩]
    have t2 : FieldElement.toBytes c2 =
        some [c2 % 256, c2 / 256 % 256, c2 / 65536 % 256, c2 / 16777216 % 256] := by
      rw [FieldElement.toBytes, if_pos ⟨hx20, by omega⟩]
    have t3 : FieldElement.toBytes c3 =
        some [c3 % 256, c3 / 256 % 256, c3 / 65536 % 256, c3 / 16777216 % 256] := by
      rw [FieldElement.toBytes, if_pos ⟨hx30, by omega⟩]
    refine ⟨[c0 % 256, c0 / 256 % 256, c0 / 65536 % 256, c0 / 16777216 % 256,
        c1 % 256, c1 / 256 % 256, c1 / 65536 % 256, c1 / 16777216 % 256,
        c2 % 256, c2 / 256 % 256, c2 / 65536 % 256, c2 / 16777216 % 256,
        c3 % 256, c3 / 256 % 256, c3 / 65536 % 256, c3 / 16777216 % 256], ?_, ?_, ?_⟩
    · simp only [ExtendedFieldElement.toBytes, t0, t1, t2, t3, Option.bind_some]
      rfl
    · rfl
    · simp only [ExtendedFieldElement.fromBytes, ExtendedFieldElement.ofList4, bbInit,
        FieldElement.init, FieldElement.leVal, BabyMersenneElement.modulus_eq,
        List.cons_append, List.nil_append, List.drop_zero, List.take_succ_cons,
        List.take_zero, List.drop_succ_cons, ExtElem.mk.injEq]
      refine ⟨?_, ?_, ?_, ?_⟩ <;> omega

/-- Claim C7 witness: the base field at `p = 7`, `a = 5`, and the extension
element `(1, 2, 3, 4)`. -/
theorem bytes_roundtrip_witness :
    ((0 < 7 ∧ (0 : Int) ≤ 5 ∧ (5 : Int) < 7 ∧ (5 : Int) < 4294967296) ∧
      ∃ bs, FieldElement.toBytes 5 = some bs ∧ bs.length = 4 ∧
        FieldElement.fromBytes 7 bs = 5) ∧
    (EReduced (ExtendedFieldElement.ofList4 1 2 3 4) ∧
      ∃ bs, ExtendedFieldElement.toBytes (ExtendedFieldElement.ofList4 1 2 3 4) = some bs ∧
        bs.length = 16 ∧
        ExtendedFieldElement.fromBytes bs = ExtendedFieldElement.ofList4 1 2 3 4) :=
  ⟨⟨⟨by norm_num, by norm_num, by norm_num, by norm_num⟩,
      bytes_roundtrip.1 7 5 (by norm_num) (by norm_num) (by norm_num) (by norm_num)⟩,
   ⟨ofList4_reduced 1 2 3 4,
      bytes_roundtrip.2 (ExtendedFieldElement.ofList4 1 2 3 4) (ofList4_reduced 1 2 3 4)⟩⟩

/-- Claim C8: reduced-representative invariant.  Construction from any
integer and every arithmetic operation return a stored value in `[0, p)`;
in particular `neg(0) = 0` (not `p`). -/
theorem FieldElement.reduced_invariant (p : Nat) (hp : 0 < p) :
    (∀ v : Int, 0 ≤ FieldElement.init p v ∧ FieldElement.init p v < p) ∧
    (∀ a b : Int, 0 ≤ FieldElement.add p a b ∧ FieldElement.add p a b < p) ∧
    (∀ a b : Int, 0 ≤ FieldElement.sub p a b ∧ FieldElement.sub p a b < p) ∧
    (∀ a b : Int, 0 ≤ FieldElement.mul p a b ∧ FieldElement.mul p a b < p) ∧
    (∀ a : Int, 0 ≤ FieldElement.neg p a ∧ FieldElement.neg p a < p) ∧
    FieldElement.neg p 0 = 0 ∧
    (∀ (a : Int) (e : Nat), 0 ≤ FieldElement.pow p a e ∧ FieldElement.pow p a e < p) ∧
    (∀ a b : Int, FieldElement.inv p a = some b → 0 ≤ b ∧ b < p) ∧
    (∀ a b c : Int, FieldElement.div p a b = some c → 0 ≤ c ∧ c < p) := by
  refine ⟨init_bounds p hp, fun a b => init_bounds p hp _, fun a b => init_bounds p hp _,
    fun a b => init_bounds p hp _, fun a => init_bounds p hp _, ?_, fun a e => init_bounds p hp _,
    ?_, ?_⟩
  · simp [FieldElement.neg, FieldElement.init]
  · intro a b h
    unfold FieldElement.inv at h
    by_cases ha : a = 0
    · rw [if_pos ha] at h
      obtain rfl : (0 : Int) = b := Option.some.inj h
      exact ⟨le_refl 0, by exact_mod_cast hp⟩
    · rw [if_neg ha] at h
      rcases hfind : (List.range p).find? (fun j => (a * ((j : Nat) : Int)) % (p : Int) == 1)
        with _ | j
      · rw [hfind] at h
        exact absurd h (by simp)
      · rw [hfind] at h
        obtain rfl : ((j : Nat) : Int) = b := Option.some.inj h
        have hj : j ∈ List.range p := List.mem_of_find?_eq_some hfind
        rw [List.mem_range] at hj
        constructor
        · omega
        · omega
  · intro a b c h
    unfold FieldElement.div at h
    rcases hinv : FieldElement.inv p b with _ | i
    · rw [hinv] at h
      exact absurd h (by simp)
    · rw [hinv] at h
      obtain rfl : FieldElement.mul p a i = c := Option.some.inj h
      exact init_bounds p hp _

/-- Claim C8 witness: at `p = 7`, construction and addition are in range,
and `neg(0) = 0`. -/
theorem FieldElement.reduced_invariant_witness :
    0 < 7 ∧ (0 ≤ FieldElement.init 7 10 ∧ FieldElement.init 7 10 < 7) ∧
    (0 ≤ FieldElement.add 7 3 5 ∧ FieldElement.add 7 3 5 < 7) ∧
    FieldElement.neg 7 0 = 0 :=
  ⟨by norm_num, (FieldElement.reduced_invariant 7 (by norm_num)).1 10,
    (FieldElement.reduced_invariant 7 (by norm_num)).2.1 3 5,
    (FieldElement.reduced_invariant 7 (by norm_num)).2.2.2.2.2.1⟩

/-- Claim C9: scalar fast-path agreement.  For every extension element `x`
and integer `n`, multiplying each coefficient by `n` (the scalar path of
`__mul__`) agrees with the general 4-tuple path applied to the embedded
scalar `(n, 0, 0, 0)` — both for the `int` embedding (which reduces `n`
through the subclass constructor) and for a base-field element's stored
value used unreduced. -/
theorem ExtendedFieldElement.scalar_mul_agrees (x : ExtElem) (n : Int) :
    ExtendedFieldElement.smul x n = ExtendedFieldElement.mul x ⟨bbInit n, 0, 0, 0⟩ ∧
    ExtendedFieldElement.smul x n = ExtendedFieldElement.mul x ⟨n, 0, 0, 0⟩ := by
  constructor
  · apply smul_eq_mul_embed
    show ((n % (7 : Int) : Int) : ZMod 7) = (n : ZMod 7)
    exact intCast_emod_seven n
  · exact smul_eq_mul_embed x n n rfl

/-- Claim C10: equality against a plain integer compares the stored reduced
value with the integer verbatim, without reducing the integer: `a == n` holds
iff `a.value = n` exactly; in particular the element `3` (mod `7`) is not
equal to the integer `10`, although `10 ≡ 3 (mod 7)`. -/
theorem FieldElement.eq_int_exact :
    (∀ (p : Nat) (v n : Int),
      FieldElement.beqInt (FieldElement.init p v) n = true ↔ FieldElement.init p v = n) ∧
    FieldElement.beqInt (FieldElement.init 7 3) 10 = false ∧
    FieldElement.init 7 10 = FieldElement.init 7 3 := by
  refine ⟨fun p v n => ?_, by decide, by decide⟩
  simp [FieldElement.beqInt]
